import Mathlib

/-! Shallow embedding of the data pipeline of the speech2affective_gestures
repository (`src/loader_v2.py` and `src/processor_v2.py`): the IEMOCAP
fixed-length windower and its split assignment, the TED-DB cache parameter
derivation, word-to-frame time alignment, the sample-cache audio int16
round-trip, adversarial speaker sampling in the batch sampler, and the
sliding-window synthesizer's subdivision count and boundary blending.
Machine floats are modelled by exact rationals; numpy array operations are
modelled by explicit list functions. -/

/-- Truncation toward zero: the behaviour of python `int(...)` on a float and
of the numpy cast to an integer type on a value within range. -/
def truncQ (q : ℚ) : ℤ := if 0 ≤ q then ⌊q⌋ else ⌈q⌉

/-- Python `round` (round-half-to-even on the exact value), as used in
`int(round(n_poses / pose_resampling_fps * 16000))` (`loader_v2.py:460`). -/
def pythonRound (q : ℚ) : ℤ :=
  if q - ⌊q⌋ < 1/2 then ⌊q⌋
  else if 1/2 < q - ⌊q⌋ then ⌊q⌋ + 1
  else if ⌊q⌋ % 2 = 0 then ⌊q⌋ else ⌊q⌋ + 1

/-- `np.ceil`, which returns the ceiling as a float; exact on rationals. -/
def npCeil (q : ℚ) : ℚ := ⌈q⌉

/-- `TedDBParams.__init__` (`loader_v2.py:460`):
`self.expected_audio_length = int(round(n_poses / pose_resampling_fps * 16000))`. -/
def tedExpectedAudioLength (n_poses fps : ℕ) : ℤ :=
  pythonRound ((n_poses : ℚ) / (fps : ℚ) * 16000)

/-- `TedDBParams.__init__` (`loader_v2.py:464`):
`self.mfcc_length = int(np.ceil(self.expected_audio_length) / 512)`.
Note the parenthesisation of the source: `np.ceil` is applied to the
(integral) audio length itself, and the division by 512 happens outside it,
after which `int(...)` truncates. -/
def tedMfccLength (n_poses fps : ℕ) : ℤ :=
  truncQ (npCeil ((tedExpectedAudioLength n_poses fps : ℚ)) / 512)

/-- `Processor.__init__` (`processor_v2.py:125`):
`self.mfcc_length = int(np.ceil(self.audio_length / 512))` — here the
division happens inside the ceiling. -/
def processorMfccLength (audio_length : ℤ) : ℤ :=
  truncQ (npCeil ((audio_length : ℚ) / 512))

theorem truncQ_of_nonneg {q : ℚ} (h : 0 ≤ q) : truncQ q = ⌊q⌋ := if_pos h

theorem pythonRound_eq_add_one_of_gt {q : ℚ} {z : ℤ} (h1 : ⌊q⌋ = z)
    (h2 : 1/2 < q - (z : ℚ)) : pythonRound q = z + 1 := by
  unfold pythonRound
  rw [h1, if_neg (by linarith), if_pos h2]

/-- Claim C2 (code bug): at the repository's TED defaults `n_poses = 34`,
`pose_resampling_fps = 15`, the derived audio length is
`round(34 / 15 * 16000) = 36267`, and `TedDBParams` derives
`mfcc_length = int(np.ceil(36267) / 512) = 70`, the floor of
`36267 / 512`, whereas the claimed invariant `ceil(audio_length / 512)`
— which is exactly what `Processor.__init__` recomputes — equals 71.
The two mfcc lengths are not the same value. -/
theorem c2_mfcc_length_mismatch :
    tedExpectedAudioLength 34 15 = 36267 ∧
    tedMfccLength 34 15 = 70 ∧
    processorMfccLength (tedExpectedAudioLength 34 15) = 71 ∧
    ⌈(36267 : ℚ) / 512⌉ = 71 := by
  have hceil : ⌈(36267 : ℚ) / 512⌉ = 71 := by
    rw [Int.ceil_eq_iff]
    norm_num
  have haudio : tedExpectedAudioLength 34 15 = 36267 := by
    have hval : tedExpectedAudioLength 34 15 = pythonRound (108800 / 3 : ℚ) := by
      unfold tedExpectedAudioLength
      norm_num
    have hfloor : ⌊(108800 / 3 : ℚ)⌋ = 36266 := by
      rw [Int.floor_eq_iff]
      norm_num
    rw [hval, pythonRound_eq_add_one_of_gt hfloor (by norm_num)]
    norm_num
  refine ⟨haudio, ?_, ?_, hceil⟩
  · rw [tedMfccLength, haudio]
    have hnp : npCeil ((36267 : ℤ) : ℚ) = 36267 := by
      unfold npCeil
      norm_num
    rw [hnp, truncQ_of_nonneg (by norm_num)]
    norm_num
  · rw [processorMfccLength, haudio]
    have hnp : npCeil (((36267 : ℤ) : ℚ) / 512) = 71 := by
      unfold npCeil
      push_cast
      rw [hceil]
      norm_num
    rw [hnp, truncQ_of_nonneg (by norm_num)]
    norm_num

/-- The windowing loop of `load_iemocap_data` (`loader_v2.py:282-287`):
`for begin in np.arange(0, time, 100): end = begin + block_size;
if end > time: break`, collecting the accepted window start indices.
The fuel argument is the number of entries of `np.arange(0, T, 100)`;
called with fuel `(T + 99) / 100`, the recursion walks exactly those
entries, stopping early at the `break`. -/
def arangeLoop : ℕ → ℕ → ℕ → ℕ → List ℕ
  | 0, _, _, _ => []
  | fuel + 1, T, block, b =>
    if b + block ≤ T then b :: arangeLoop fuel T block (b + 100) else []

/-- Accepted window start indices for a session of `T` frames. -/
def acceptedStarts (T block : ℕ) : List ℕ := arangeLoop ((T + 99) / 100) T block 0

/-- One feature stream of the Fixed-Length Windower of `load_iemocap_data`
(`loader_v2.py:259-303`): a session whose feature sequence has
`T ≤ block` frames yields one block zero-padded on the trailing rows;
otherwise sliding windows of `block` frames at stride 100 starting at 0,
dropping any window whose end would exceed `T`.  The three streams
(filterbank, delta, delta-delta) are windowed identically; we model one
stream of `filterNum` channels. -/
def iemocapWindows (mel : List (List ℚ)) (block filterNum : ℕ) :
    List (List (List ℚ)) :=
  if mel.length ≤ block then
    [mel ++ List.replicate (block - mel.length) (List.replicate filterNum 0)]
  else
    (acceptedStarts mel.length block).map (fun b => (mel.drop b).take block)

theorem arangeLoop_mem_le {T block : ℕ} :
    ∀ fuel b x, x ∈ arangeLoop fuel T block b → x + block ≤ T := by
  intro fuel
  induction fuel with
  | zero => intro b x hx; simp [arangeLoop] at hx
  | succ n ih =>
    intro b x hx
    by_cases hb : b + block ≤ T
    · simp only [arangeLoop, if_pos hb, List.mem_cons] at hx
      rcases hx with rfl | hx
      · exact hb
      · exact ih _ _ hx
    · simp [arangeLoop, hb] at hx

theorem arangeLoop_length {T block : ℕ} :
    ∀ fuel b, b + block ≤ T → (T - block - b) / 100 < fuel →
      (arangeLoop fuel T block b).length = (T - block - b) / 100 + 1 := by
  intro fuel
  induction fuel with
  | zero => intro b _ h; omega
  | succ n ih =>
    intro b hb hf
    simp only [arangeLoop, if_pos hb, List.length_cons]
    by_cases hnext : b + 100 + block ≤ T
    · rw [ih (b + 100) hnext (by omega)]
      omega
    · have hempty : arangeLoop n T block (b + 100) = [] := by
        cases n with
        | zero => rfl
        | succ m => simp [arangeLoop, hnext]
      rw [hempty]
      simp only [List.length_nil]
      omega

theorem acceptedStarts_length {T block : ℕ} (h1 : 1 ≤ block) (h2 : block < T) :
    (acceptedStarts T block).length = (T - block) / 100 + 1 := by
  have h := @arangeLoop_length T block ((T + 99) / 100) 0
    (by omega) (by omega)
  simpa [acceptedStarts] using h

theorem arangeLoop_ne_nil {T block : ℕ} (h : block ≤ T) (fuel : ℕ) (hf : 0 < fuel) :
    0 < (arangeLoop fuel T block 0).length := by
  cases fuel with
  | zero => omega
  | succ n => simp [arangeLoop, h]

/-- Claim C3: for a session of `T ≤ block_size` frames the windower emits
exactly one block, equal to the session zero-padded on the trailing rows to
exactly `block_size` frames; for `T > block_size` it emits exactly
`(T - block_size) / 100 + 1` blocks (stride 100 starting at 0), each of
exactly `block_size` frames, and no accepted start plus `block_size`
exceeds `T` (the remainder after the last full window is dropped). -/
theorem c3_windower_blocks (mel : List (List ℚ)) (block filterNum : ℕ)
    (hb : 1 ≤ block) :
    (mel.length ≤ block →
      iemocapWindows mel block filterNum =
        [mel ++ List.replicate (block - mel.length) (List.replicate filterNum 0)] ∧
      ((iemocapWindows mel block filterNum).headD []).length = block) ∧
    (block < mel.length →
      (iemocapWindows mel block filterNum).length = (mel.length - block) / 100 + 1 ∧
      (∀ w ∈ iemocapWindows mel block filterNum, w.length = block) ∧
      (∀ s ∈ acceptedStarts mel.length block, s + block ≤ mel.length)) := by
  have hpad : mel.length ≤ block →
      iemocapWindows mel block filterNum =
        [mel ++ List.replicate (block - mel.length) (List.replicate filterNum 0)] := by
    intro hle
    simp [iemocapWindows, hle]
  have hslide : block < mel.length →
      iemocapWindows mel block filterNum =
        (acceptedStarts mel.length block).map (fun b => (mel.drop b).take block) := by
    intro hgt
    have hnle : ¬ mel.length ≤ block := by omega
    simp [iemocapWindows, hnle]
  constructor
  · intro hle
    refine ⟨hpad hle, ?_⟩
    rw [hpad hle]
    simp only [List.headD_cons, List.length_append, List.length_replicate]
    omega
  · intro hgt
    refine ⟨?_, ?_, ?_⟩
    · rw [hslide hgt, List.length_map]
      exact acceptedStarts_length hb hgt
    · intro w hw
      rw [hslide hgt, List.mem_map] at hw
      obtain ⟨s, hs, rfl⟩ := hw
      have hsle : s + block ≤ mel.length := arangeLoop_mem_le _ _ _ hs
      rw [List.length_take, List.length_drop]
      omega
    · intro s hs
      exact arangeLoop_mem_le _ _ _ hs

/-- Witness for C3 at concrete inputs: a 250-frame session with block size
300 emits one 300-frame padded block; a 450-frame session emits
`(450 - 300) / 100 + 1 = 2` blocks. -/
theorem c3_windower_blocks_witness :
    ((iemocapWindows (List.replicate 250 [(0 : ℚ)]) 300 1).headD []).length = 300 ∧
    (iemocapWindows (List.replicate 450 [(0 : ℚ)]) 300 1).length = 2 := by
  constructor
  · exact ((c3_windower_blocks (List.replicate 250 [(0 : ℚ)]) 300 1 (by norm_num)).1
      (by rw [List.length_replicate]; norm_num)).2
  · have h := ((c3_windower_blocks (List.replicate 450 [(0 : ℚ)]) 300 1 (by norm_num)).2
      (by rw [List.length_replicate]; norm_num)).1
    rw [List.length_replicate] at h
    rw [h]

/-- Running state of the session loop of `load_iemocap_data`
(`loader_v2.py:220-223`): the global window counter `data_count` and the
three per-split index lists. -/
structure LoadState where
  dataCount : ℕ
  trainIdx : List ℕ
  valIdx : List ℕ
  testIdx : List ℕ

/-- `session_set_train = [1, 2, 3, 4]` (`loader_v2.py:213`). -/
def sessionSetTrain : List ℕ := [1, 2, 3, 4]

/-- `session_set_test = [5]` (`loader_v2.py:214`). -/
def sessionSetTest : List ℕ := [5]

/-- `append_idx` (`loader_v2.py:178-183`): both branches append
`data_count - 1`, the index of the last window emitted so far. -/
def append_idx (idx_list : List ℕ) (data_count time block_size : ℕ) : List ℕ :=
  if time ≤ block_size then idx_list ++ [data_count - 1]
  else idx_list ++ [data_count - 1]

/-- The character at python index `[-8]` of a file base name
(`wav_file_name.split('/')[-1][-8]`, `loader_v2.py:314`); `none` when the
name is shorter than 8 characters (python would raise there). -/
def charAtMinus8 (s : List Char) : Option Char :=
  if 8 ≤ s.length then s.get? (s.length - 8) else none

/-- One `.wav` utterance of an IEMOCAP session: its feature sequence and
the base name of its file. -/
structure WavFile where
  mel : List (List ℚ)
  baseName : List Char

/-- One iteration of the wav-file loop of `load_iemocap_data`
(`loader_v2.py:253-317`): emit the utterance's windows (each window
increments `data_count`), then register exactly one call of `append_idx`
into the split chosen by the session number and the `[-8]` filename
character. -/
def processWavFile (block filterNum sessionNum : ℕ) (st : LoadState) (w : WavFile) :
    LoadState :=
  let wins := iemocapWindows w.mel block filterNum
  let time := w.mel.length
  let dc := st.dataCount + wins.length
  let st1 : LoadState := { st with dataCount := dc }
  if sessionNum ∈ sessionSetTrain then
    { st1 with trainIdx := append_idx st1.trainIdx dc time block }
  else if sessionNum ∈ sessionSetTest then
    if charAtMinus8 w.baseName = some 'M' then
      { st1 with testIdx := append_idx st1.testIdx dc time block }
    else
      { st1 with valIdx := append_idx st1.valIdx dc time block }
  else st1

set_option maxRecDepth 8000 in
/-- Counterexample to claim C1: a 400-frame utterance in Session 1 emits
two windows (global indices 0 and 1), but only index 1 — the last window —
reaches the training split; window 0 belongs to no split.  So it is false
that every accepted window of a session 1-4 utterance is placed in the
training split. -/
theorem c1_counterexample :
    (iemocapWindows (List.replicate 400 [(0 : ℚ)]) 300 1).length = 2 ∧
    (processWavFile 300 1 1 ⟨0, [], [], []⟩
      ⟨List.replicate 400 [(0 : ℚ)], []⟩).trainIdx = [1] ∧
    0 ∉ (processWavFile 300 1 1 ⟨0, [], [], []⟩
      ⟨List.replicate 400 [(0 : ℚ)], []⟩).trainIdx := by
  refine ⟨by decide, by decide, by decide⟩

theorem iemocapWindows_ne_nil (mel : List (List ℚ)) (block filterNum : ℕ) :
    0 < (iemocapWindows mel block filterNum).length := by
  by_cases hle : mel.length ≤ block
  · simp [iemocapWindows, hle]
  · have hgt : block < mel.length := by omega
    have hnle : ¬ mel.length ≤ block := by omega
    simp only [iemocapWindows, if_neg hnle, List.length_map]
    exact arangeLoop_ne_nil (by omega) _ (by omega)

/-- Claim C1 (amended): processing one utterance advances the global window
counter by the utterance's window count, and registers exactly ONE index —
`data_count - 1`, the global index of the utterance's LAST emitted window —
in the split selected by the session number (sessions 1-4: train;
session 5: test when the filename character at python index `[-8]` is
`'M'`, validation otherwise); the other two split lists are untouched.
Windows of the utterance other than the last are assigned to no split. -/
theorem c1_last_window_split (block filterNum sessionNum : ℕ) (st : LoadState)
    (w : WavFile) (_hname : 8 ≤ w.baseName.length) :
    1 ≤ (iemocapWindows w.mel block filterNum).length ∧
    (processWavFile block filterNum sessionNum st w).dataCount =
      st.dataCount + (iemocapWindows w.mel block filterNum).length ∧
    (sessionNum ∈ sessionSetTrain →
      (processWavFile block filterNum sessionNum st w).trainIdx =
        st.trainIdx ++ [st.dataCount + (iemocapWindows w.mel block filterNum).length - 1] ∧
      (processWavFile block filterNum sessionNum st w).valIdx = st.valIdx ∧
      (processWavFile block filterNum sessionNum st w).testIdx = st.testIdx) ∧
    (sessionNum ∈ sessionSetTest → charAtMinus8 w.baseName = some 'M' →
      (processWavFile block filterNum sessionNum st w).testIdx =
        st.testIdx ++ [st.dataCount + (iemocapWindows w.mel block filterNum).length - 1] ∧
      (processWavFile block filterNum sessionNum st w).trainIdx = st.trainIdx ∧
      (processWavFile block filterNum sessionNum st w).valIdx = st.valIdx) ∧
    (sessionNum ∈ sessionSetTest → ¬ charAtMinus8 w.baseName = some 'M' →
      (processWavFile block filterNum sessionNum st w).valIdx =
        st.valIdx ++ [st.dataCount + (iemocapWindows w.mel block filterNum).length - 1] ∧
      (processWavFile block filterNum sessionNum st w).trainIdx = st.trainIdx ∧
      (processWavFile block filterNum sessionNum st w).testIdx = st.testIdx) := by
  have hpos := iemocapWindows_ne_nil w.mel block filterNum
  refine ⟨by omega, ?_, ?_, ?_, ?_⟩
  · unfold processWavFile
    by_cases htr : sessionNum ∈ sessionSetTrain
    · simp [htr]
    · by_cases hte : sessionNum ∈ sessionSetTest
      · by_cases hm : charAtMinus8 w.baseName = some 'M'
        · simp [htr, hte, hm]
        · simp [htr, hte, hm]
      · simp [htr, hte]
  · intro htr
    unfold processWavFile
    simp [htr, append_idx, ite_self]
  · intro hte hm
    have htr : sessionNum ∉ sessionSetTrain := by
      simp only [sessionSetTest, List.mem_singleton] at hte
      simp [sessionSetTrain, hte]
    unfold processWavFile
    simp [htr, hte, hm, append_idx, ite_self]
  · intro hte hm
    have htr : sessionNum ∉ sessionSetTrain := by
      simp only [sessionSetTest, List.mem_singleton] at hte
      simp [sessionSetTrain, hte]
    unfold processWavFile
    simp [htr, hte, hm, append_idx, ite_self]

set_option maxRecDepth 8000 in
/-- Witness for the amended C1 on the counterexample utterance: the
400-frame Session-1 utterance's last window (global index 1) is the one
registered in the training split. -/
theorem c1_last_window_split_witness :
    (processWavFile 300 1 1 ⟨0, [], [], []⟩
      ⟨List.replicate 400 [(0 : ℚ)], "Ses01F_impro01_M001.wav".data⟩).trainIdx =
      [] ++ [0 + (iemocapWindows (List.replicate 400 [(0 : ℚ)]) 300 1).length - 1] :=
  ((c1_last_window_split 300 1 1 ⟨0, [], [], []⟩
      ⟨List.replicate 400 [(0 : ℚ)], "Ses01F_impro01_M001.wav".data⟩
      (by decide)).2.2.1 (by decide)).1

theorem getD_set_self {α : Type} {l : List α} {i : ℕ} (v d : α) (h : i < l.length) :
    (l.set i v).getD i d = v := by
  induction l generalizing i with
  | nil => simp at h
  | cons x t ih =>
    cases i with
    | zero => rfl
    | succ n =>
      simp only [List.set_cons_succ, List.getD_cons_succ]
      exact ih (by simpa using h)

theorem getD_set_ne {α : Type} {l : List α} {i j : ℕ} (hij : i ≠ j) (v d : α) :
    (l.set i v).getD j d = l.getD j d := by
  induction l generalizing i j with
  | nil => simp [List.set_nil]
  | cons x t ih =>
    cases i with
    | zero =>
      cases j with
      | zero => exact absurd rfl hij
      | succ m => rfl
    | succ n =>
      cases j with
      | zero => rfl
      | succ m =>
        simp only [List.set_cons_succ, List.getD_cons_succ]
        exact ih (show n ≠ m by omega)

/-- A timed word event `(word, start_time, end_time)` as stored in the
word sequences of the TED-DB records. -/
structure TimedWord where
  word : String
  wstart : ℚ
  wend : ℚ

/-- The clamped grid index of a word in `Processor.extend_word_seq`
(`processor_v2.py:416,426`):
`max(0, int(np.floor((word[1] - start_time) / frame_duration)))`. -/
def wordFrameIdx (start_time frame_duration : ℚ) (w : TimedWord) : ℤ :=
  max 0 ⌊(w.wstart - start_time) / frame_duration⌋

/-- `Processor.extend_word_seq` (`processor_v2.py:406-431`), the TimeGrid
Aligner.  The vocabulary lookup `lang.get_word_index` is modelled as a
function `lang : String → ℕ`; index 0 is the padding token, as in
`np.zeros(n_frames)`.  In the timing-removed branch the source indexes
`words[word_idx]` for `word_idx < n_words`; since `n_words` never exceeds
`len(words)`, the `getD` default is never reached. -/
def extend_word_seq (n_frames : ℕ) (lang : String → ℕ) (remove_word_timing : Bool)
    (words : List TimedWord) (start_time end_time : ℚ) : List ℕ :=
  let frame_duration := (end_time - start_time) / (n_frames : ℚ)
  if remove_word_timing then
    let n_words :=
      (words.filter (fun w => wordFrameIdx start_time frame_duration w < (n_frames : ℤ))).length
    let space := n_frames / (n_words + 1)
    (List.range n_words).foldl
      (fun arr word_idx =>
        arr.set ((word_idx + 1) * space) (lang (words.getD word_idx ⟨"", 0, 0⟩).word))
      (List.replicate n_frames 0)
  else
    words.foldl
      (fun arr w =>
        if wordFrameIdx start_time frame_duration w < (n_frames : ℤ) then
          arr.set (wordFrameIdx start_time frame_duration w).toNat (lang w.word)
        else arr)
      (List.replicate n_frames 0)

/-- The last word of `words` whose clamped grid index equals `pos`. -/
def lastWordAt (start_time frame_duration : ℚ) (words : List TimedWord) (pos : ℕ) :
    Option TimedWord :=
  (words.filter (fun w => wordFrameIdx start_time frame_duration w = (pos : ℤ))).getLast?

theorem extend_foldl_getD (n_frames : ℕ) (lang : String → ℕ)
    (start_time frame_duration : ℚ) :
    ∀ (words : List TimedWord) (arr : List ℕ), arr.length = n_frames →
      ∀ pos : ℕ, pos < n_frames →
        (words.foldl
          (fun a w =>
            if wordFrameIdx start_time frame_duration w < (n_frames : ℤ) then
              a.set (wordFrameIdx start_time frame_duration w).toNat (lang w.word)
            else a) arr).getD pos 0 =
        (lastWordAt start_time frame_duration words pos).elim (arr.getD pos 0)
          (fun w => lang w.word) := by
  intro words
  induction words with
  | nil => intro arr _ pos _; simp [lastWordAt]
  | cons w ws ih =>
    intro arr hlen pos hpos
    by_cases hq : wordFrameIdx start_time frame_duration w < (n_frames : ℤ)
    · by_cases hat : wordFrameIdx start_time frame_duration w = (pos : ℤ)
      · have htoNat : (wordFrameIdx start_time frame_duration w).toNat = pos := by
          omega
        simp only [List.foldl_cons, if_pos hq, htoNat]
        rw [ih (arr.set pos (lang w.word)) (by simp [hlen]) pos hpos]
        rw [getD_set_self _ _ (by omega)]
        unfold lastWordAt
        rw [List.filter_cons_of_pos (by simpa using hat)]
        cases hrest : (ws.filter
            (fun x => decide (wordFrameIdx start_time frame_duration x = (pos : ℤ)))) with
        | nil => simp [lastWordAt, hrest]
        | cons y ys =>
          rw [List.getLast?_cons_cons]
          cases hz : (y :: ys).getLast? with
          | none => exact absurd (List.getLast?_eq_none_iff.mp hz) (by simp)
          | some z => simp
      · have htoNat : (wordFrameIdx start_time frame_duration w).toNat ≠ pos := by
          have h0 : 0 ≤ wordFrameIdx start_time frame_duration w := le_max_left _ _
          omega
        simp only [List.foldl_cons, if_pos hq]
        rw [ih _ (by simp [hlen]) pos hpos]
        rw [getD_set_ne htoNat]
        unfold lastWordAt
        rw [List.filter_cons_of_neg (by simpa using hat)]
    · have hat : ¬ wordFrameIdx start_time frame_duration w = (pos : ℤ) := by
        omega
      simp only [List.foldl_cons, if_neg hq]
      rw [ih arr hlen pos hpos]
      unfold lastWordAt
      rw [List.filter_cons_of_neg (by simpa using hat)]

theorem getD_replicate_self {α : Type} (d : α) :
    ∀ (n pos : ℕ), (List.replicate n d).getD pos d = d := by
  intro n
  induction n with
  | zero => intro pos; simp
  | succ m ih =>
    intro pos
    cases pos with
    | zero => rfl
    | succ p => exact ih p

theorem range_foldl_set_length {α : Type} (space : ℕ) (f : ℕ → α) :
    ∀ (m : ℕ) (arr : List α),
      ((List.range m).foldl (fun a i => a.set ((i + 1) * space) (f i)) arr).length =
        arr.length := by
  intro m
  induction m with
  | zero => intro arr; rfl
  | succ n ih =>
    intro arr
    rw [List.range_succ, List.foldl_append]
    simp only [List.foldl_cons, List.foldl_nil, List.length_set]
    exact ih arr

theorem range_foldl_set_untouched {α : Type} (space : ℕ) (f : ℕ → α) (d : α) :
    ∀ (m : ℕ) (arr : List α) (pos : ℕ), (∀ k < m, pos ≠ (k + 1) * space) →
      ((List.range m).foldl (fun a i => a.set ((i + 1) * space) (f i)) arr).getD pos d =
        arr.getD pos d := by
  intro m
  induction m with
  | zero => intro arr pos _; rfl
  | succ n ih =>
    intro arr pos hpos
    rw [List.range_succ, List.foldl_append]
    simp only [List.foldl_cons, List.foldl_nil]
    rw [getD_set_ne (fun h => hpos n (by omega) h.symm)]
    exact ih arr pos (fun k hk => hpos k (by omega))

theorem range_foldl_set_written {α : Type} (space : ℕ) (f : ℕ → α) (d : α)
    (hsp : 0 < space) :
    ∀ (m : ℕ) (arr : List α), (∀ k < m, (k + 1) * space < arr.length) →
      ∀ k < m,
        ((List.range m).foldl (fun a i => a.set ((i + 1) * space) (f i)) arr).getD
          ((k + 1) * space) d = f k := by
  intro m
  induction m with
  | zero => intro arr _ k hk; omega
  | succ n ih =>
    intro arr hbound k hk
    rw [List.range_succ, List.foldl_append]
    simp only [List.foldl_cons, List.foldl_nil]
    by_cases hkn : k = n
    · subst hkn
      rw [getD_set_self]
      rw [range_foldl_set_length]
      exact hbound k hk
    · have hne : (n + 1) * space ≠ (k + 1) * space := by
        intro h
        have := Nat.eq_of_mul_eq_mul_right hsp h
        omega
      rw [getD_set_ne hne]
      exact ih arr (fun j hj => hbound j (by omega)) k (by omega)

theorem wordFrameIdx_bounds (n : ℕ) (s e : ℚ) (hn : 0 < n) (hse : s < e)
    (w : TimedWord) (hw1 : s ≤ w.wstart) (hw2 : w.wstart < e) :
    0 ≤ wordFrameIdx s ((e - s) / (n : ℚ)) w ∧
      wordFrameIdx s ((e - s) / (n : ℚ)) w < (n : ℤ) := by
  have hnq : (0 : ℚ) < (n : ℚ) := by exact_mod_cast hn
  have hfd : 0 < (e - s) / (n : ℚ) := div_pos (by linarith) hnq
  refine ⟨le_max_left _ _, ?_⟩
  rw [wordFrameIdx, max_lt_iff]
  refine ⟨by exact_mod_cast hn, ?_⟩
  rw [Int.floor_lt]
  push_cast
  rw [div_lt_iff hfd]
  have hmul : (n : ℚ) * ((e - s) / (n : ℚ)) = e - s := by
    field_simp
  linarith [hmul]

/-- Claim C4: under the standard policy, position `pos` of the grid holds
the vocabulary index of the LAST word whose clamped index is `pos`
(last-write-wins), and the padding token 0 everywhere else; under the
timing-removed policy (when every word lies in `[start_time, end_time)`,
so all `words.length` words map within range), word `k` is placed at
position `(k + 1) * space` with `space = n_frames / (words.length + 1)`,
in original order, and all other positions hold the padding token. -/
theorem c4_extend_word_seq (n_frames : ℕ) (lang : String → ℕ)
    (words : List TimedWord) (start_time end_time : ℚ)
    (hn : 0 < n_frames) (hse : start_time < end_time)
    (hwords : ∀ w ∈ words, start_time ≤ w.wstart ∧ w.wstart < end_time)
    (hlen : words.length < n_frames) :
    (∀ pos < n_frames,
      (extend_word_seq n_frames lang false words start_time end_time).getD pos 0 =
        (lastWordAt start_time ((end_time - start_time) / (n_frames : ℚ)) words pos).elim 0
          (fun w => lang w.word)) ∧
    (∀ k < words.length,
      (extend_word_seq n_frames lang true words start_time end_time).getD
          ((k + 1) * (n_frames / (words.length + 1))) 0 =
        lang ((words.getD k ⟨"", 0, 0⟩).word)) ∧
    (∀ pos < n_frames,
      (∀ k < words.length, pos ≠ (k + 1) * (n_frames / (words.length + 1))) →
      (extend_word_seq n_frames lang true words start_time end_time).getD pos 0 = 0) := by
  have hfilter :
      words.filter (fun w =>
        wordFrameIdx start_time ((end_time - start_time) / (n_frames : ℚ)) w <
          (n_frames : ℤ)) = words := by
    rw [List.filter_eq_self]
    intro w hw
    simp only [decide_eq_true_eq]
    exact (wordFrameIdx_bounds n_frames start_time end_time hn hse w
      (hwords w hw).1 (hwords w hw).2).2
  have hsp : 0 < n_frames / (words.length + 1) := Nat.div_pos (by omega) (by omega)
  have hbound : ∀ k < words.length,
      (k + 1) * (n_frames / (words.length + 1)) < n_frames := by
    intro k hk
    calc (k + 1) * (n_frames / (words.length + 1))
        ≤ words.length * (n_frames / (words.length + 1)) :=
          Nat.mul_le_mul_right _ (by omega)
      _ < (words.length + 1) * (n_frames / (words.length + 1)) :=
          (Nat.mul_lt_mul_right hsp).mpr (Nat.lt_succ_self _)
      _ = (n_frames / (words.length + 1)) * (words.length + 1) := Nat.mul_comm _ _
      _ ≤ n_frames := Nat.div_mul_le_self _ _
  refine ⟨?_, ?_, ?_⟩
  · intro pos hpos
    have h := extend_foldl_getD n_frames lang start_time
      ((end_time - start_time) / (n_frames : ℚ)) words
      (List.replicate n_frames 0) (List.length_replicate _ _) pos hpos
    rw [extend_word_seq]
    simp only [Bool.false_eq_true, if_false]
    rw [h, getD_replicate_self]
  · intro k hk
    rw [extend_word_seq]
    simp only [if_true]
    rw [hfilter]
    exact range_foldl_set_written _ _ _ hsp words.length (List.replicate n_frames 0)
      (fun j hj => by rw [List.length_replicate]; exact hbound j hj) k hk
  · intro pos hpos hne
    rw [extend_word_seq]
    simp only [if_true]
    rw [hfilter]
    rw [range_foldl_set_untouched _ _ _ words.length (List.replicate n_frames 0) pos hne]
    exact getD_replicate_self _ _ _

/-- Witness for C4 on the spec's concrete examples: with `n_frames = 10`,
`start_time = 0`, `end_time = 1`, the word `("go", 0.35, 0.5)` lands at grid
index `floor(0.35 / 0.1) = 3`; a timing-removed call with two in-range words
and `n_frames = 9` places them at indices 3 and 6 (`space = 3`). -/
theorem c4_extend_word_seq_witness :
    (extend_word_seq 10 (fun w => if w = "go" then 42 else 0) false
        [⟨"go", 7/20, 1/2⟩] 0 1).getD 3 0 = 42 ∧
    (extend_word_seq 9 (fun w => if w = "hello" then 5 else 7) true
        [⟨"hello", 1/10, 1/5⟩, ⟨"world", 3/10, 2/5⟩] 0 1).getD 3 0 = 5 ∧
    (extend_word_seq 9 (fun w => if w = "hello" then 5 else 7) true
        [⟨"hello", 1/10, 1/5⟩, ⟨"world", 3/10, 2/5⟩] 0 1).getD 6 0 = 7 := by
  have hws1 : ∀ w ∈ ([⟨"go", 7/20, 1/2⟩] : List TimedWord),
      (0 : ℚ) ≤ w.wstart ∧ w.wstart < 1 := by
    intro w hw
    simp only [List.mem_singleton] at hw
    subst hw
    constructor <;> norm_num
  have hws2 : ∀ w ∈ ([⟨"hello", 1/10, 1/5⟩, ⟨"world", 3/10, 2/5⟩] : List TimedWord),
      (0 : ℚ) ≤ w.wstart ∧ w.wstart < 1 := by
    intro w hw
    simp only [List.mem_cons, List.mem_singleton] at hw
    rcases hw with rfl | rfl | h
    · constructor <;> norm_num
    · constructor <;> norm_num
    · simp at h
  refine ⟨?_, ?_, ?_⟩
  · have h := (c4_extend_word_seq 10 (fun w => if w = "go" then 42 else 0)
      [⟨"go", 7/20, 1/2⟩] 0 1 (by norm_num) (by norm_num) hws1 (by simp)).1 3 (by norm_num)
    rw [h]
    norm_num [lastWordAt, wordFrameIdx]
  · have h := (c4_extend_word_seq 9 (fun w => if w = "hello" then 5 else 7)
      [⟨"hello", 1/10, 1/5⟩, ⟨"world", 3/10, 2/5⟩] 0 1 (by norm_num) (by norm_num)
      hws2 (by simp)).2.1 0 (by simp)
    simpa using h
  · have h := (c4_extend_word_seq 9 (fun w => if w = "hello" then 5 else 7)
      [⟨"hello", 1/10, 1/5⟩, ⟨"world", 3/10, 2/5⟩] 0 1 (by norm_num) (by norm_num)
      hws2 (by simp)).2.1 1 (by simp)
    simpa using h

/-- Modelled from the spec: `make_audio_fixed_length` (imported into
`processor_v2.py` from `utils.ted_db_utils`, whose source is not part of
the given files).  Per the spec's Sample Cache contract, the raw audio is
clipped to exactly `L` samples, or zero-padded on the trailing side to
exactly `L` samples. -/
def make_audio_fixed_length (audio : List ℚ) (L : ℕ) : List ℚ :=
  if L ≤ audio.length then audio.take L
  else audio ++ List.replicate (L - audio.length) 0

/-- `np.max(np.abs(audio))` (`processor_v2.py:299`).  For a nonempty list
this fold equals the maximum absolute value (numpy raises on an empty
array; the claims only concern audio with a positive peak). -/
def maxAbs (l : List ℚ) : ℚ := l.foldl (fun m x => max m |x|) 0

/-- The int16 encoding of one audio sample in `Processor.save_cache`
(`processor_v2.py:319`): `np.int16(audio / audio_max * 32767)` — a numpy
cast that truncates toward zero; the encoded magnitude never exceeds
32767 (proved in `c6_audio_roundtrip`), so the cast never wraps. -/
def encodeSample (audio_max x : ℚ) : ℤ := truncQ (x / audio_max * 32767)

/-- The decoding in `Processor.yield_batch` (`processor_v2.py:605-607`):
`audio * audio_max / 32767`. -/
def decodeSample (audio_max : ℚ) (i : ℤ) : ℚ := (i : ℚ) * audio_max / 32767

theorem abs_truncQ_sub_le (q : ℚ) : |((truncQ q : ℤ) : ℚ) - q| ≤ 1 := by
  unfold truncQ
  split
  · rw [abs_le]
    constructor
    · linarith [Int.floor_le q, Int.lt_floor_add_one q]
    · linarith [Int.floor_le q, Int.lt_floor_add_one q]
  · rw [abs_le]
    constructor
    · linarith [Int.le_ceil q, Int.ceil_lt_add_one q]
    · linarith [Int.le_ceil q, Int.ceil_lt_add_one q]

theorem abs_truncQ_le (q : ℚ) : |((truncQ q : ℤ) : ℚ)| ≤ |q| := by
  unfold truncQ
  split
  · next h =>
    rw [abs_of_nonneg h, abs_of_nonneg (by exact_mod_cast Int.floor_nonneg.mpr h)]
    exact Int.floor_le q
  · next h =>
    push_neg at h
    have hc : ⌈q⌉ ≤ 0 := Int.ceil_le.mpr (by push_cast; linarith)
    rw [abs_of_neg h, abs_of_nonpos (by exact_mod_cast hc)]
    simp only [neg_le_neg_iff]
    exact Int.le_ceil q

theorem le_foldl_max (l : List ℚ) (a : ℚ) :
    a ≤ l.foldl (fun m x => max m |x|) a ∧
      ∀ x ∈ l, |x| ≤ l.foldl (fun m x => max m |x|) a := by
  induction l generalizing a with
  | nil => simp
  | cons y t ih =>
    refine ⟨le_trans (le_max_left a |y|) (ih (max a |y|)).1, ?_⟩
    intro x hx
    rw [List.mem_cons] at hx
    rcases hx with rfl | hx
    · exact le_trans (le_max_right a |x|) (ih (max a |x|)).1
    · exact (ih (max a |y|)).2 x hx

theorem maxAbs_nonneg (l : List ℚ) : 0 ≤ maxAbs l := (le_foldl_max l 0).1

theorem abs_le_maxAbs {l : List ℚ} {x : ℚ} (hx : x ∈ l) : |x| ≤ maxAbs l :=
  (le_foldl_max l 0).2 x hx

theorem getD_mem_of_lt {α : Type} {l : List α} {j : ℕ} (d : α) (h : j < l.length) :
    l.getD j d ∈ l := by
  induction l generalizing j with
  | nil => simp at h
  | cons x t ih =>
    cases j with
    | zero => exact List.mem_cons_self _ _
    | succ n => exact List.mem_cons_of_mem _ (ih (by simpa using h))

theorem make_audio_length (audio : List ℚ) (L : ℕ) :
    (make_audio_fixed_length audio L).length = L := by
  unfold make_audio_fixed_length
  split
  · next h => rw [List.length_take]; omega
  · next h => rw [List.length_append, List.length_replicate]; omega

theorem make_audio_mem {audio : List ℚ} {L : ℕ} {x : ℚ}
    (hx : x ∈ make_audio_fixed_length audio L) : x ∈ audio ∨ x = 0 := by
  unfold make_audio_fixed_length at hx
  split at hx
  · exact Or.inl (List.take_subset _ _ hx)
  · rw [List.mem_append] at hx
    rcases hx with hx | hx
    · exact Or.inl hx
    · exact Or.inr (List.eq_of_mem_replicate hx)

/-- Claim C6: for raw audio with positive peak `audio_max = max |raw|`, every
sample of the clipped/zero-padded fixed-length audio survives the
int16-by-peak encoding of `save_cache` and the decoding of `yield_batch` with
per-sample error at most one quantization step `audio_max / 32767`; moreover
every encoded value fits the int16 range, so the numpy cast never wraps. -/
theorem c6_audio_roundtrip (raw : List ℚ) (L : ℕ) (hpos : 0 < maxAbs raw) :
    ∀ j < L,
      |decodeSample (maxAbs raw)
          (encodeSample (maxAbs raw) ((make_audio_fixed_length raw L).getD j 0)) -
        (make_audio_fixed_length raw L).getD j 0| ≤ maxAbs raw / 32767 ∧
      |encodeSample (maxAbs raw) ((make_audio_fixed_length raw L).getD j 0)| ≤ 32767 := by
  intro j hj
  set am := maxAbs raw with ham
  set f := (make_audio_fixed_length raw L).getD j 0 with hf
  have hfmem : f ∈ make_audio_fixed_length raw L := by
    rw [hf]
    exact getD_mem_of_lt 0 (by rw [make_audio_length]; exact hj)
  have hfabs : |f| ≤ am := by
    rcases make_audio_mem hfmem with hmem | h0
    · exact abs_le_maxAbs hmem
    · rw [h0]
      simpa using le_of_lt hpos
  have hamne : am ≠ 0 := ne_of_gt hpos
  set y := f / am * 32767 with hy
  have hfy : f = (y : ℚ) * am / 32767 := by
    rw [hy]
    field_simp
  constructor
  · rw [decodeSample, encodeSample, ← hy]
    have hdiff : ((truncQ y : ℤ) : ℚ) * am / 32767 - f =
        (((truncQ y : ℤ) : ℚ) - y) * am / 32767 := by
      rw [hfy]
      ring
    rw [hdiff, abs_div, abs_mul]
    rw [abs_of_pos hpos, abs_of_pos (show (0:ℚ) < 32767 by norm_num)]
    have h1 : |((truncQ y : ℤ) : ℚ) - y| ≤ 1 := abs_truncQ_sub_le y
    have h2 : |((truncQ y : ℤ) : ℚ) - y| * am ≤ 1 * am :=
      mul_le_mul_of_nonneg_right h1 (le_of_lt hpos)
    calc |((truncQ y : ℤ) : ℚ) - y| * am / 32767 ≤ 1 * am / 32767 :=
          (div_le_div_right (show (0:ℚ) < 32767 by norm_num)).mpr h2
      _ = am / 32767 := by ring
  · rw [encodeSample, ← hy]
    have h1 : |((truncQ y : ℤ) : ℚ)| ≤ |y| := abs_truncQ_le y
    have h2 : |y| ≤ 32767 := by
      rw [hy, abs_mul, abs_div]
      rw [abs_of_pos hpos, abs_of_pos (show (0:ℚ) < 32767 by norm_num)]
      have : |f| / am ≤ 1 := by
        rw [div_le_one hpos]
        exact hfabs
      nlinarith [abs_nonneg f]
    have : |((truncQ y : ℤ) : ℚ)| ≤ 32767 := le_trans h1 h2
    exact_mod_cast this

/-- Witness for C6: raw audio `[1/2, -1]` has peak 1, and after zero-padding
to 3 samples, sample 0 round-trips within one quantization step. -/
theorem c6_audio_roundtrip_witness :
    0 < maxAbs [(1 : ℚ)/2, -1] ∧
    |decodeSample (maxAbs [(1 : ℚ)/2, -1])
        (encodeSample (maxAbs [(1 : ℚ)/2, -1])
          ((make_audio_fixed_length [(1 : ℚ)/2, -1] 3).getD 0 0)) -
      (make_audio_fixed_length [(1 : ℚ)/2, -1] 3).getD 0 0| ≤
      maxAbs [(1 : ℚ)/2, -1] / 32767 := by
  have hpos : 0 < maxAbs [(1 : ℚ)/2, -1] := by norm_num [maxAbs]
  exact ⟨hpos, (c6_audio_roundtrip [(1 : ℚ)/2, -1] 3 hpos 0 (by norm_num)).1⟩

/-- `np.max` of a nonempty list (the global maximum over all axes). -/
def listMax : List ℚ → ℚ
  | [] => 0
  | x :: t => t.foldl max x

/-- `np.min` of a nonempty list (the global minimum over all axes). -/
def listMin : List ℚ → ℚ
  | [] => 0
  | x :: t => t.foldl min x

/-- All scalar entries of one feature stream, shaped
samples × frames × channels. -/
def streamVals (xs : List (List (List ℚ))) : List ℚ := xs.flatten.flatten

/-- The rescaling `(x - min) / (max - min)` of `load_iemocap_data`. -/
def scale01 (mn mx x : ℚ) : ℚ := (x - mn) / (mx - mn)

/-- The normalization of one feature stream in `load_iemocap_data`
(`loader_v2.py:362-379`): `max1 = np.max(train_data_wav_1)` and
`min1 = np.min(train_data_wav_1)` are single scalars over the whole
training stream (all samples, frames and channels), and the same two
scalars rescale the training, validation and test streams.  The code
repeats this for each of the three streams with that stream's own
training statistics; we model one stream. -/
def normalizeSplits (tr vl ts : List (List (List ℚ))) :
    List (List (List ℚ)) × List (List (List ℚ)) × List (List (List ℚ)) :=
  let mx := listMax (streamVals tr)
  let mn := listMin (streamVals tr)
  (tr.map (List.map (List.map (scale01 mn mx))),
   vl.map (List.map (List.map (scale01 mn mx))),
   ts.map (List.map (List.map (scale01 mn mx))))

/-- The values of feature channel `c` across a stream. -/
def channelVals (xs : List (List (List ℚ))) (c : ℕ) : List ℚ :=
  xs.flatten.map (fun frame => frame.getD c 0)

/-- Per-feature-channel normalization following the SPEC's words
("normalized per-feature-channel to [0, 1] using min/max computed on the
training partition only"): channel `c` is rescaled by the min/max of
channel `c` over the training stream.  Declared only to compare with the
code's `normalizeSplits`. -/
def normalizePerChannelSpec (tr xs : List (List (List ℚ))) :
    List (List (List ℚ)) :=
  xs.map (List.map (fun frame =>
    frame.mapIdx (fun c x =>
      scale01 (listMin (channelVals tr c)) (listMax (channelVals tr c)) x)))

/-- Counterexample to claim C5 as stated: on the training stream
`[[[0, 10], [1, 20]]]` (one sample, two frames, two channels) the code's
single global min/max (0 and 20) gives `[[[0, 1/2], [1/20, 1]]]`, while
per-feature-channel statistics would give `[[[0, 0], [1, 1]]]`; the code
does not normalize per feature channel. -/
theorem c5_counterexample :
    (normalizeSplits [[[0, 10], [1, 20]]] [] []).1 ≠
      normalizePerChannelSpec [[[0, 10], [1, 20]]] [[[0, 10], [1, 20]]] ∧
    (normalizeSplits [[[0, 10], [1, 20]]] [] []).1 = [[[0, 1/2], [1/20, 1]]] ∧
    normalizePerChannelSpec [[[0, 10], [1, 20]]] [[[0, 10], [1, 20]]] =
      [[[0, 0], [1, 1]]] := by
  have h1 : (normalizeSplits [[[0, 10], [1, 20]]] [] []).1 = [[[0, 1/2], [1/20, 1]]] := by
    norm_num [normalizeSplits, streamVals, listMax, listMin, scale01]
  have h2 : normalizePerChannelSpec [[[0, 10], [1, 20]]] [[[0, 10], [1, 20]]] =
      [[[0, 0], [1, 1]]] := by
    norm_num [normalizePerChannelSpec, channelVals, listMax, listMin, scale01,
      List.mapIdx_cons]
  refine ⟨?_, h1, h2⟩
  rw [h1, h2]
  simp

theorem foldl_max_bounds (l : List ℚ) (a : ℚ) :
    a ≤ l.foldl max a ∧ ∀ x ∈ l, x ≤ l.foldl max a := by
  induction l generalizing a with
  | nil => simp
  | cons y t ih =>
    refine ⟨le_trans (le_max_left a y) (ih (max a y)).1, ?_⟩
    intro x hx
    rw [List.mem_cons] at hx
    rcases hx with rfl | hx
    · exact le_trans (le_max_right a x) (ih (max a x)).1
    · exact (ih (max a y)).2 x hx

theorem foldl_min_bounds (l : List ℚ) (a : ℚ) :
    l.foldl min a ≤ a ∧ ∀ x ∈ l, l.foldl min a ≤ x := by
  induction l generalizing a with
  | nil => simp
  | cons y t ih =>
    refine ⟨le_trans (ih (min a y)).1 (min_le_left a y), ?_⟩
    intro x hx
    rw [List.mem_cons] at hx
    rcases hx with rfl | hx
    · exact le_trans (ih (min a x)).1 (min_le_right a x)
    · exact (ih (min a y)).2 x hx

theorem le_listMax {l : List ℚ} {x : ℚ} (hx : x ∈ l) : x ≤ listMax l := by
  cases l with
  | nil => simp at hx
  | cons y t =>
    rw [List.mem_cons] at hx
    rcases hx with rfl | hx
    · exact (foldl_max_bounds t x).1
    · exact (foldl_max_bounds t y).2 x hx

theorem listMin_le {l : List ℚ} {x : ℚ} (hx : x ∈ l) : listMin l ≤ x := by
  cases l with
  | nil => simp at hx
  | cons y t =>
    rw [List.mem_cons] at hx
    rcases hx with rfl | hx
    · exact (foldl_min_bounds t x).1
    · exact (foldl_min_bounds t y).2 x hx

theorem streamVals_map (f : ℚ → ℚ) (xs : List (List (List ℚ))) :
    streamVals (xs.map (List.map (List.map f))) = (streamVals xs).map f := by
  unfold streamVals
  rw [List.map_flatten, List.map_flatten]

/-- Claim C5 (amended): each feature stream is rescaled by a single global
scalar min/max pair (not per-feature-channel statistics) computed on the
TRAINING stream only; the validation and test streams are rescaled with the
training statistics unchanged, and — whenever the training stream is not
constant — every normalized training value lies in `[0, 1]`. -/
theorem c5_stream_normalization (tr vl ts : List (List (List ℚ)))
    (h : listMin (streamVals tr) < listMax (streamVals tr)) :
    (∀ x ∈ streamVals (normalizeSplits tr vl ts).1, 0 ≤ x ∧ x ≤ 1) ∧
    (normalizeSplits tr vl ts).2.1 =
      vl.map (List.map (List.map
        (scale01 (listMin (streamVals tr)) (listMax (streamVals tr))))) ∧
    (normalizeSplits tr vl ts).2.2 =
      ts.map (List.map (List.map
        (scale01 (listMin (streamVals tr)) (listMax (streamVals tr))))) := by
  refine ⟨?_, rfl, rfl⟩
  intro x hx
  rw [show (normalizeSplits tr vl ts).1 =
      tr.map (List.map (List.map
        (scale01 (listMin (streamVals tr)) (listMax (streamVals tr))))) from rfl,
    streamVals_map] at hx
  obtain ⟨y, hy, rfl⟩ := List.mem_map.mp hx
  have h1 : listMin (streamVals tr) ≤ y := listMin_le hy
  have h2 : y ≤ listMax (streamVals tr) := le_listMax hy
  unfold scale01
  constructor
  · exact div_nonneg (by linarith) (by linarith)
  · rw [div_le_one (by linarith)]
    linarith

/-- Witness for the amended C5: on the training stream `[[[0, 10], [1, 20]]]`
the statistics are non-degenerate and the normalized value at flat position 1
(which is `1/2`) lies in `[0, 1]`. -/
theorem c5_stream_normalization_witness :
    listMin (streamVals [[[0, 10], [1, 20]]]) <
      listMax (streamVals [[[0, 10], [1, 20]]]) ∧
    (0 ≤ (streamVals (normalizeSplits [[[0, 10], [1, 20]]] [] []).1).getD 1 0 ∧
      (streamVals (normalizeSplits [[[0, 10], [1, 20]]] [] []).1).getD 1 0 ≤ 1) := by
  have hlt : listMin (streamVals [[[0, 10], [1, 20]]]) <
      listMax (streamVals [[[0, 10], [1, 20]]]) := by
    norm_num [listMin, listMax, streamVals]
  refine ⟨hlt, (c5_stream_normalization [[[0, 10], [1, 20]]] [] [] hlt).1 _ ?_⟩
  apply getD_mem_of_lt
  norm_num [normalizeSplits, streamVals]

/-- `np.setdiff1d(a, b)`: the distinct values of `a` that are not in `b`.
numpy additionally sorts the result; no claim depends on the order, and
the random draw below is quantified over every selector. -/
def np_setdiff1d (a b : List ℤ) : List ℤ :=
  (a.filter (fun x => decide (x ∉ b))).dedup

/-- `np.random.choice(arr)` for a 1-D domain: some element of `arr`,
selected by the (arbitrary) seed-dependent selector `sel`; numpy raises
`ValueError` on an empty domain. -/
def np_random_choice (arr : List ℤ) (sel : ℕ) : Except String ℤ :=
  if h : arr = [] then .error "a cannot be empty unless no samples are taken"
  else .ok (arr.get ⟨sel % arr.length, Nat.mod_lt _ (List.length_pos.mpr h)⟩)

/-- The batch loop
`[np.random.choice(np.setdiff1d(vocab_values, curr_vid_indices)) for _ in
range(batch_size)]` of `yield_batch` (`processor_v2.py:626-629`), one draw
per batch element; the whole construction fails if any draw fails. -/
def drawForeignVids (domain : List ℤ) : List ℕ → Except String (List ℤ)
  | [] => .ok []
  | s :: rest =>
    match np_random_choice domain s, drawForeignVids domain rest with
    | .ok v, .ok vs => .ok (v :: vs)
    | .error e, _ => .error e
    | .ok _, .error e => .error e

/-- The adversarial speaker draw of `yield_batch`
(`processor_v2.py:622-635`): `vocabVals` are the speaker-vocabulary index
values (`word2index.values()`), `curr` the ground-truth speaker indices of
the batch's samples (`vid_indices[rand_keys]`), and `sels` one selector per
batch element standing for the random seed. -/
def yield_batch_vid_indices (vocabVals curr : List ℤ) (sels : List ℕ) :
    Except String (List ℤ) :=
  drawForeignVids (np_setdiff1d vocabVals curr) sels

theorem np_random_choice_mem {arr : List ℤ} {sel : ℕ} {v : ℤ}
    (h : np_random_choice arr sel = Except.ok v) : v ∈ arr := by
  unfold np_random_choice at h
  split at h
  · exact absurd h (by simp)
  · rw [Except.ok.injEq] at h
    rw [← h]
    exact arr.get_mem _ _

theorem mem_np_setdiff1d {a b : List ℤ} {x : ℤ} (hx : x ∈ np_setdiff1d a b) :
    x ∈ a ∧ x ∉ b := by
  unfold np_setdiff1d at hx
  rw [List.mem_dedup, List.mem_filter] at hx
  exact ⟨hx.1, by simpa using hx.2⟩

theorem drawForeignVids_mem {domain : List ℤ} :
    ∀ {sels : List ℕ} {res : List ℤ}, drawForeignVids domain sels = Except.ok res →
      ∀ x ∈ res, x ∈ domain := by
  intro sels
  induction sels with
  | nil =>
    intro res hres x hx
    simp only [drawForeignVids, Except.ok.injEq] at hres
    rw [← hres] at hx
    simp at hx
  | cons s rest ih =>
    intro res hres x hx
    simp only [drawForeignVids] at hres
    cases hc : np_random_choice domain s with
    | error e => rw [hc] at hres; exact absurd hres (by simp)
    | ok v =>
      rw [hc] at hres
      cases hr : drawForeignVids domain rest with
      | error e => rw [hr] at hres; exact absurd hres (by simp)
      | ok vs =>
        rw [hr] at hres
        rw [Except.ok.injEq] at hres
        rw [← hres, List.mem_cons] at hx
        rcases hx with rfl | hx
        · exact np_random_choice_mem hc
        · exact ih hr x hx

/-- Claim C7: whenever the speaker vocabulary contains at least one index
absent from the batch, every successfully drawn "foreign speaker" index
belongs to the vocabulary and differs from the true speaker index of every
sample in the batch (hence from each element's own true speaker), for every
random selector (seed). -/
theorem c7_foreign_speaker (vocabVals curr : List ℤ) (sels : List ℕ)
    (res : List ℤ) (_hex : ∃ v ∈ vocabVals, v ∉ curr)
    (hok : yield_batch_vid_indices vocabVals curr sels = Except.ok res) :
    ∀ x ∈ res, x ∈ vocabVals ∧ x ∉ curr := by
  intro x hx
  exact mem_np_setdiff1d (drawForeignVids_mem hok x hx)

/-- Witness for C7: vocabulary `[10, 20, 30]`, batch speakers `[10, 20]`,
two draws; the drawn index 30 is in the vocabulary and matches no batch
speaker. -/
theorem c7_foreign_speaker_witness :
    yield_batch_vid_indices [10, 20, 30] [10, 20] [0, 1] = Except.ok [30, 30] ∧
    ((30 : ℤ) ∈ ([10, 20, 30] : List ℤ) ∧ (30 : ℤ) ∉ ([10, 20] : List ℤ)) := by
  have hok : yield_batch_vid_indices [10, 20, 30] [10, 20] [0, 1] =
      Except.ok [30, 30] := by rfl
  exact ⟨hok, c7_foreign_speaker [10, 20, 30] [10, 20] [0, 1] [30, 30]
    ⟨30, by decide, by decide⟩ hok 30 (by decide)⟩

/-- Claim C8: when the speaker-exclusion set covers the whole vocabulary
(degenerate single-speaker split), the first draw already fails: the batch
sampler surfaces the empty-domain sampling error instead of hanging or
silently producing an index. -/
theorem c8_degenerate_exclusion (vocabVals curr : List ℤ) (sels : List ℕ)
    (hall : ∀ v ∈ vocabVals, v ∈ curr) (hne : sels ≠ []) :
    yield_batch_vid_indices vocabVals curr sels =
      Except.error "a cannot be empty unless no samples are taken" := by
  have hdom : np_setdiff1d vocabVals curr = [] := by
    unfold np_setdiff1d
    rw [List.dedup_eq_nil, List.filter_eq_nil_iff]
    intro x hx
    simpa using hall x hx
  cases sels with
  | nil => exact absurd rfl hne
  | cons s rest =>
    unfold yield_batch_vid_indices drawForeignVids
    rw [hdom]
    rfl

/-- Witness for C8: with vocabulary `[3]` and batch speakers `[3]`, one
draw fails fast with the empty-domain error. -/
theorem c8_degenerate_exclusion_witness :
    yield_batch_vid_indices [3] [3] [0] =
      Except.error "a cannot be empty unless no samples are taken" :=
  c8_degenerate_exclusion [3] [3] [0] (by decide) (by decide)

/-- The boundary smoothing of `render_clip` (`processor_v2.py:1296-1320`)
on one output channel: `last_poses = out_list[-1][-n_pre:]` are the
trailing `n_pre` frames of the previous accumulated window, they are
dropped from it (`out_list[-1] = out_list[-1][:-n_pre]`), and frame `j` of
the next window is replaced by
`prev_pose * (n - j) / (n + 1) + next_pose * (j + 1) / (n + 1)` with
`n = len(last_poses)`.  Modelled for `1 ≤ n_pre` (the configuration always
uses `n_pre ≥ 1`; python's degenerate `[-0:]` slicing is not modelled). -/
def smoothTransition (nPre : ℕ) (prevOut nextOut : List ℚ) : List ℚ × List ℚ :=
  let lastPoses := prevOut.drop (prevOut.length - nPre)
  let n := lastPoses.length
  (prevOut.take (prevOut.length - nPre),
   nextOut.mapIdx (fun j x =>
     if j < n then
       lastPoses.getD j 0 * ((n : ℚ) - (j : ℚ)) / ((n : ℚ) + 1) +
         x * ((j : ℚ) + 1) / ((n : ℚ) + 1)
     else x))

/-- The accumulation of per-window outputs in the synthesis loop of
`render_clip`: the first window is appended as is; every later window
first smooths against the accumulated list's last window, whose trailing
`n_pre` frames are dropped. -/
def out_accumulate (nPre : ℕ) (outs : List (List ℚ)) : List (List ℚ) :=
  outs.foldl
    (fun acc nxt =>
      match acc.getLast? with
      | none => acc ++ [nxt]
      | some prev =>
        let st := smoothTransition nPre prev nxt
        acc.dropLast ++ [st.1, st.2])
    []

/-- Claim C9: stitching two consecutive windows drops the trailing
`n_pre_poses` frames of the previous output and replaces overlap frame `j`
of the next output by
`prev[j] * (n - j) / (n + 1) + next[j] * (j + 1) / (n + 1)` (where `prev`
ranges over the dropped trailing frames), leaving frames beyond the
overlap unchanged. -/
theorem c9_blend (nPre : ℕ) (prevOut nextOut : List ℚ)
    (h1 : nPre ≤ prevOut.length) (h2 : nPre ≤ nextOut.length) (h3 : 1 ≤ nPre) :
    out_accumulate nPre [prevOut, nextOut] =
      [prevOut.take (prevOut.length - nPre),
        (smoothTransition nPre prevOut nextOut).2] ∧
    (∀ j < nPre,
      ((smoothTransition nPre prevOut nextOut).2).getD j 0 =
        prevOut.getD (prevOut.length - nPre + j) 0 * ((nPre : ℚ) - (j : ℚ)) /
            ((nPre : ℚ) + 1) +
          nextOut.getD j 0 * ((j : ℚ) + 1) / ((nPre : ℚ) + 1)) ∧
    (∀ j, nPre ≤ j →
      ((smoothTransition nPre prevOut nextOut).2).getD j 0 = nextOut.getD j 0) := by
  have hlastlen : (prevOut.drop (prevOut.length - nPre)).length = nPre := by
    rw [List.length_drop]
    omega
  refine ⟨?_, ?_, ?_⟩
  · simp [out_accumulate, smoothTransition]
  · intro j hj
    have hjnext : j < nextOut.length := by omega
    simp only [smoothTransition]
    rw [List.getD_eq_getElem?_getD, List.getElem?_mapIdx,
      List.getElem?_eq_getElem hjnext]
    simp only [Option.map_some', Option.getD_some, hlastlen, if_pos hj]
    have e1 : (prevOut.drop (prevOut.length - nPre)).getD j 0 =
        prevOut.getD (prevOut.length - nPre + j) 0 := by
      rw [List.getD_eq_getElem?_getD, List.getD_eq_getElem?_getD,
        List.getElem?_drop]
    have e2 : nextOut.getD j 0 = nextOut[j] := by
      rw [List.getD_eq_getElem?_getD, List.getElem?_eq_getElem hjnext]
      rfl
    rw [e1, e2]
  · intro j hj
    by_cases hjlen : j < nextOut.length
    · simp only [smoothTransition]
      rw [List.getD_eq_getElem?_getD, List.getElem?_mapIdx,
        List.getElem?_eq_getElem hjlen]
      simp only [Option.map_some', Option.getD_some, hlastlen]
      rw [if_neg (by omega)]
      rw [List.getD_eq_getElem?_getD, List.getElem?_eq_getElem hjlen]
      rfl
    · have hnone : nextOut[j]? = none := by
        rw [List.getElem?_eq_none_iff]
        omega
      simp only [smoothTransition, List.getD_eq_getElem?_getD,
        List.getElem?_mapIdx, hnone, Option.map_none', Option.getD_none]

/-- Witness for C9 on the spec's concrete example: `n_pre_poses = 4`,
`prev = [1, 1, 1, 1]`, `next = [5, 5, 5, 5]` blend to
`[1.8, 2.6, 3.4, 4.2]`; we check the first and last blended frames
`9/5 = 1.8` and `21/5 = 4.2`. -/
theorem c9_blend_witness :
    ((smoothTransition 4 [(1 : ℚ), 1, 1, 1] [5, 5, 5, 5]).2).getD 0 0 = 9/5 ∧
    ((smoothTransition 4 [(1 : ℚ), 1, 1, 1] [5, 5, 5, 5]).2).getD 3 0 = 21/5 := by
  have h0 := (c9_blend 4 [(1 : ℚ), 1, 1, 1] [5, 5, 5, 5]
    (by decide) (by decide) (by decide)).2.1 0 (by decide)
  have h3 := (c9_blend 4 [(1 : ℚ), 1, 1, 1] [5, 5, 5, 5]
    (by decide) (by decide) (by decide)).2.1 3 (by decide)
  constructor
  · rw [h0]
    norm_num
  · rw [h3]
    norm_num

/-- The subdivision count of `render_clip` (`processor_v2.py:1196-1204`):
`num_subdivisions = 1` if `clip_length < unit_time`, else
`math.ceil((clip_length - unit_time) / stride_time)`. -/
def num_subdivisions (clip_length unit_time stride_time : ℚ) : ℤ :=
  if clip_length < unit_time then 1
  else ⌈(clip_length - unit_time) / stride_time⌉

/-- The synthesis loop `for sub_div_idx in range(0, num_subdivisions)`
(`processor_v2.py:1226`): the external generator is invoked once per
subdivision; `gen k` is the generator's output window for subdivision `k`
(one output channel). -/
def render_windows (gen : ℕ → List ℚ) (num : ℤ) : List (List ℚ) :=
  (List.range num.toNat).map gen

/-- `np.vstack` over the accumulated window list
(`processor_v2.py:1322-1324`): numpy raises on an empty list. -/
def np_vstack (xs : List (List ℚ)) : Except String (List ℚ) :=
  match xs with
  | [] => .error "need at least one array to concatenate"
  | _ => .ok xs.flatten

/-- The aggregation tail of `render_clip`: run the synthesis loop, smooth
window boundaries, then stack the accumulated outputs. -/
def render_clip_out (gen : ℕ → List ℚ) (clip_length unit_time stride_time : ℚ)
    (nPre : ℕ) : Except String (List ℚ) :=
  np_vstack (out_accumulate nPre
    (render_windows gen (num_subdivisions clip_length unit_time stride_time)))

/-- Claim C10: for a clip whose duration equals `unit_time` exactly, the
strict comparison `clip_length < unit_time` fails and
`ceil((clip_length - unit_time) / stride_time) = 0`, so the synthesis loop
runs zero times — the generator is never invoked, for every generator —
and stacking the empty output list raises the empty-concatenation error
instead of producing a one-window output. -/
theorem c10_exact_unit_time (gen : ℕ → List ℚ) (unit_time stride_time : ℚ)
    (nPre : ℕ) (hs : 0 < stride_time) :
    num_subdivisions unit_time unit_time stride_time = 0 ∧
    render_windows gen (num_subdivisions unit_time unit_time stride_time) = [] ∧
    render_clip_out gen unit_time unit_time stride_time nPre =
      Except.error "need at least one array to concatenate" := by
  have h0 : num_subdivisions unit_time unit_time stride_time = 0 := by
    unfold num_subdivisions
    rw [if_neg (lt_irrefl unit_time), sub_self, zero_div, Int.ceil_zero]
  refine ⟨h0, ?_, ?_⟩
  · rw [render_windows, h0]
    rfl
  · rw [render_clip_out, render_windows, h0]
    rfl

/-- Witness for C10 at `unit_time = stride_time = 2`, `n_pre_poses = 4`,
with a generator producing a constant window. -/
theorem c10_exact_unit_time_witness :
    (0 : ℚ) < 2 ∧
    render_clip_out (fun _ => [(7 : ℚ)]) 2 2 2 4 =
      Except.error "need at least one array to concatenate" :=
  ⟨by norm_num,
    (c10_exact_unit_time (fun _ => [(7 : ℚ)]) 2 2 4 (by norm_num)).2.2⟩
